import Mathlib

/-!
Verification of the `multimap` repository (Go): shallow embedding of the
Key codec (`key.go`), the array-based multi-map (the default `MultiMap`
implementation), the ART node value-set helpers
(`art/common_node_functions.go`) and the ART child lookup
(`art/get_child.go`, `art/presence_bitmap.go`).

Conventions of the embedding:
* Go byte slices / `Key` values are `List Nat`; every byte produced by the
  code is `< 256` (big-endian byte extraction is done `% 256` exactly as
  `byte(x)` truncates in Go).
* Go `uint64` arithmetic is `Nat` arithmetic with explicit `% 2^64`;
  Go signed integers are `Int` with `uint64(x)` modelled as `Int.emod x (2^64)`.
* `set3.Set3[T]` (an external collaborator: a deduplicated set) is modelled
  as a `List T` with membership-guarded insertion; a Go `*Set3[T]` that may
  be nil is `Option (List T)`.
* Functions that can only terminate by Go `panic` return `Except Unit`.
-/

set_option maxHeartbeats 1000000

/-! ## Key codec (`key.go`) -/

/-- `Key.LessThan` from `key.go`: bytewise lexicographic strict order; at the
first differing byte the smaller byte wins; a strict prefix is smaller. -/
def keyLessThan : List Nat → List Nat → Bool
  | [], other => decide (0 < other.length)
  | _ :: _, [] => false
  | x :: xs, y :: ys =>
    if x < y then true
    else if y < x then false
    else keyLessThan xs ys

/-- `Key.Equal` from `key.go`: length check, then bytewise comparison. -/
def keyEqual : List Nat → List Nat → Bool
  | [], [] => true
  | [], _ :: _ => false
  | _ :: _, [] => false
  | x :: xs, y :: ys => decide (x = y) && keyEqual xs ys

/-- `binary.BigEndian.PutUint64` as used by all integer Key constructors:
eight bytes, most significant first; `byte(u >> s)` truncates mod 256. -/
def putUint64BE (u : Nat) : List Nat :=
  [u / 2 ^ 56 % 256, u / 2 ^ 48 % 256, u / 2 ^ 40 % 256, u / 2 ^ 32 % 256,
   u / 2 ^ 24 % 256, u / 2 ^ 16 % 256, u / 2 ^ 8 % 256, u % 256]

/-- `uint64(i)` for a Go signed value held as an `Int`: two's-complement
reinterpretation, i.e. the nonnegative representative of `i` mod `2^64`. -/
def toUint64 (i : Int) : Nat := (i % (2 ^ 64 : Int)).toNat

/-- `FromInt64` from `key.go`: `u := uint64(i) + 1<<63` (wrapping uint64
addition), written big-endian. -/
def FromInt64 (i : Int) : List Nat :=
  putUint64BE ((toUint64 i + 2 ^ 63) % 2 ^ 64)

/-- `FromInt` from `key.go`: `uint64(int64(i))` then the same bias; on the
64-bit platforms the code targets this is the same computation as `FromInt64`. -/
def FromInt (i : Int) : List Nat :=
  putUint64BE ((toUint64 i + 2 ^ 63) % 2 ^ 64)

/-- `FromInt32` from `key.go`: `uint64(int64(i))` (sign extension is exact on
the mathematical value) then the `1<<63` bias, written big-endian. -/
def FromInt32 (i : Int) : List Nat :=
  putUint64BE ((toUint64 i + 2 ^ 63) % 2 ^ 64)

/-- `FromInt16` from `key.go`. -/
def FromInt16 (i : Int) : List Nat :=
  putUint64BE ((toUint64 i + 2 ^ 63) % 2 ^ 64)

/-- `FromInt8` from `key.go`. -/
def FromInt8 (i : Int) : List Nat :=
  putUint64BE ((toUint64 i + 2 ^ 63) % 2 ^ 64)

/-- `FromUint64` from `key.go`: `u + 1<<63` with wrapping uint64 addition,
written big-endian. The argument is a `uint64`, i.e. a `Nat < 2^64`. -/
def FromUint64 (u : Nat) : List Nat :=
  putUint64BE ((u % 2 ^ 64 + 2 ^ 63) % 2 ^ 64)

/-- `FromUint` from `key.go` (zero extension of `uint` is exact). -/
def FromUint (u : Nat) : List Nat :=
  putUint64BE ((u % 2 ^ 64 + 2 ^ 63) % 2 ^ 64)

/-- `FromUint32` from `key.go`. -/
def FromUint32 (u : Nat) : List Nat :=
  putUint64BE ((u % 2 ^ 64 + 2 ^ 63) % 2 ^ 64)

/-- `FromUint16` from `key.go`. -/
def FromUint16 (u : Nat) : List Nat :=
  putUint64BE ((u % 2 ^ 64 + 2 ^ 63) % 2 ^ 64)

/-- `FromUint8` from `key.go`. -/
def FromUint8 (u : Nat) : List Nat :=
  putUint64BE ((u % 2 ^ 64 + 2 ^ 63) % 2 ^ 64)

/-! ### Helper lemmas: the biased big-endian encoding is order-preserving -/

/-- Big-endian digits of `u` in base 256, `w` digits, most significant first.
`putUint64BE` equals `natToBE 8` on inputs `< 2^64`. -/
def natToBE : Nat → Nat → List Nat
  | 0, _ => []
  | w + 1, u => u / 256 ^ w :: natToBE w (u % 256 ^ w)

theorem natToBE_length (w u : Nat) : (natToBE w u).length = w := by
  induction w generalizing u with
  | zero => rfl
  | succ w ih => simp [natToBE, ih]

theorem mod_pow_div_mod (u j k : Nat) :
    u / 256 ^ j % 256 = u % 256 ^ (j + 1 + k) / 256 ^ j % 256 := by
  conv_lhs => rw [← Nat.div_add_mod u (256 ^ (j + 1 + k))]
  rw [show 256 ^ (j + 1 + k) * (u / 256 ^ (j + 1 + k))
        = 256 ^ j * (256 * (256 ^ k * (u / 256 ^ (j + 1 + k)))) by ring]
  rw [Nat.mul_add_div (by positivity), Nat.mul_add_mod]

theorem digit_eq (u j : Nat) : u % 256 ^ (j + 1) / 256 ^ j = u / 256 ^ j % 256 := by
  have hlt : u % 256 ^ (j + 1) / 256 ^ j < 256 := by
    apply Nat.div_lt_of_lt_mul
    calc u % 256 ^ (j + 1) < 256 ^ (j + 1) := Nat.mod_lt u (by positivity)
      _ = 256 ^ j * 256 := by ring
  have h0 := mod_pow_div_mod u j 0
  rw [Nat.mod_eq_of_lt hlt] at h0
  exact h0.symm

theorem putUint64BE_eq_natToBE (u : Nat) (h : u < 2 ^ 64) :
    putUint64BE u = natToBE 8 u := by
  have hmm : ∀ a b : Nat, a ≤ b → u % 256 ^ b % 256 ^ a = u % 256 ^ a := by
    intro a b hab
    exact Nat.mod_mod_of_dvd u (pow_dvd_pow 256 hab)
  have expand : natToBE 8 u =
      [u / 256 ^ 7, u % 256 ^ 7 / 256 ^ 6, u % 256 ^ 6 / 256 ^ 5,
       u % 256 ^ 5 / 256 ^ 4, u % 256 ^ 4 / 256 ^ 3, u % 256 ^ 3 / 256 ^ 2,
       u % 256 ^ 2 / 256 ^ 1, u % 256 ^ 1 / 256 ^ 0] := by
    simp only [natToBE, hmm 6 7 (by omega), hmm 5 6 (by omega), hmm 4 5 (by omega),
      hmm 3 4 (by omega), hmm 2 3 (by omega), hmm 1 2 (by omega), hmm 0 1 (by omega)]
  have hhead : u / 2 ^ 56 % 256 = u / 2 ^ 56 := by
    apply Nat.mod_eq_of_lt
    apply Nat.div_lt_of_lt_mul
    omega
  rw [expand, putUint64BE, hhead, digit_eq u 6, digit_eq u 5, digit_eq u 4,
    digit_eq u 3, digit_eq u 2, digit_eq u 1, digit_eq u 0]
  norm_num

theorem natToBE_lt_iff (w : Nat) :
    ∀ u v : Nat, u < 256 ^ w → v < 256 ^ w →
      (keyLessThan (natToBE w u) (natToBE w v) = true ↔ u < v) := by
  induction w with
  | zero =>
    intro u v hu hv
    simp only [pow_zero, Nat.lt_one_iff] at hu hv
    subst hu; subst hv
    simp [natToBE, keyLessThan]
  | succ w ih =>
    intro u v hu hv
    have hdu : u / 256 ^ w < 256 := by
      apply Nat.div_lt_of_lt_mul
      calc u < 256 ^ (w + 1) := hu
        _ = 256 ^ w * 256 := by ring
    have hdv : v / 256 ^ w < 256 := by
      apply Nat.div_lt_of_lt_mul
      calc v < 256 ^ (w + 1) := hv
        _ = 256 ^ w * 256 := by ring
    have hmu : u % 256 ^ w < 256 ^ w := Nat.mod_lt u (by positivity)
    have hmv : v % 256 ^ w < 256 ^ w := Nat.mod_lt v (by positivity)
    have hu2 := Nat.div_add_mod u (256 ^ w)
    have hv2 := Nat.div_add_mod v (256 ^ w)
    simp only [natToBE, keyLessThan]
    by_cases h1 : u / 256 ^ w < v / 256 ^ w
    · simp only [h1, if_pos]
      constructor
      · intro _
        have : 256 ^ w * (u / 256 ^ w) + 256 ^ w ≤ 256 ^ w * (v / 256 ^ w) := by
          have := Nat.succ_le_of_lt h1
          calc 256 ^ w * (u / 256 ^ w) + 256 ^ w
              = 256 ^ w * (u / 256 ^ w + 1) := by ring
            _ ≤ 256 ^ w * (v / 256 ^ w) := Nat.mul_le_mul_left _ this
        omega
      · intro _; trivial
    · by_cases h2 : v / 256 ^ w < u / 256 ^ w
      · simp only [h1, if_neg, h2, if_pos, not_false_iff]
        constructor
        · intro hc; cases hc
        · intro hlt
          exfalso
          have : 256 ^ w * (v / 256 ^ w) + 256 ^ w ≤ 256 ^ w * (u / 256 ^ w) := by
            have := Nat.succ_le_of_lt h2
            calc 256 ^ w * (v / 256 ^ w) + 256 ^ w
                = 256 ^ w * (v / 256 ^ w + 1) := by ring
              _ ≤ 256 ^ w * (u / 256 ^ w) := Nat.mul_le_mul_left _ this
          omega
      · have heq : u / 256 ^ w = v / 256 ^ w := by omega
        rw [← heq] at hv2
        simp only [h1, h2, if_neg, not_false_iff]
        rw [ih (u % 256 ^ w) (v % 256 ^ w) hmu hmv]
        constructor
        · intro hlt; omega
        · intro hlt; omega

/-- The biased uint64 computed by the signed constructors, as a function of the
mathematical value: for `i` in the int64 range the wrap-around never occurs and
the result is just `i + 2^63`. -/
theorem biased_eq (i : Int) (hlo : -(2 ^ 63) ≤ i) (hhi : i < 2 ^ 63) :
    ((toUint64 i + 2 ^ 63) % 2 ^ 64 : Nat) = (i + 2 ^ 63).toNat := by
  unfold toUint64
  omega

theorem fromInt64_lt_iff (a b : Int)
    (ha1 : -(2 ^ 63) ≤ a) (ha2 : a < 2 ^ 63)
    (hb1 : -(2 ^ 63) ≤ b) (hb2 : b < 2 ^ 63) :
    a < b ↔ keyLessThan (FromInt64 a) (FromInt64 b) = true := by
  unfold FromInt64
  have hma : (toUint64 a + 2 ^ 63) % 2 ^ 64 < 2 ^ 64 := Nat.mod_lt _ (by norm_num)
  have hmb : (toUint64 b + 2 ^ 63) % 2 ^ 64 < 2 ^ 64 := Nat.mod_lt _ (by norm_num)
  rw [putUint64BE_eq_natToBE _ hma, putUint64BE_eq_natToBE _ hmb,
    natToBE_lt_iff 8 _ _ (by norm_num at hma ⊢; omega) (by norm_num at hmb ⊢; omega),
    biased_eq a ha1 ha2, biased_eq b hb1 hb2]
  omega

/-- C4: for values of the same signed integer type (each width, via its own
constructor from `key.go`), numeric order coincides with bytewise
lexicographic order (`Key.LessThan`) of the encoded keys. -/
theorem int_encoding_order_preserving :
    (∀ a b : Int, -(2 ^ 7) ≤ a → a < 2 ^ 7 → -(2 ^ 7) ≤ b → b < 2 ^ 7 →
      (a < b ↔ keyLessThan (FromInt8 a) (FromInt8 b) = true)) ∧
    (∀ a b : Int, -(2 ^ 15) ≤ a → a < 2 ^ 15 → -(2 ^ 15) ≤ b → b < 2 ^ 15 →
      (a < b ↔ keyLessThan (FromInt16 a) (FromInt16 b) = true)) ∧
    (∀ a b : Int, -(2 ^ 31) ≤ a → a < 2 ^ 31 → -(2 ^ 31) ≤ b → b < 2 ^ 31 →
      (a < b ↔ keyLessThan (FromInt32 a) (FromInt32 b) = true)) ∧
    (∀ a b : Int, -(2 ^ 63) ≤ a → a < 2 ^ 63 → -(2 ^ 63) ≤ b → b < 2 ^ 63 →
      (a < b ↔ keyLessThan (FromInt a) (FromInt b) = true)) ∧
    (∀ a b : Int, -(2 ^ 63) ≤ a → a < 2 ^ 63 → -(2 ^ 63) ≤ b → b < 2 ^ 63 →
      (a < b ↔ keyLessThan (FromInt64 a) (FromInt64 b) = true)) := by
  refine ⟨?_, ?_, ?_, ?_, ?_⟩ <;>
    intro a b ha1 ha2 hb1 hb2 <;>
    exact fromInt64_lt_iff a b (by norm_num at ha1 ⊢; omega) (by norm_num at ha2 ⊢; omega)
      (by norm_num at hb1 ⊢; omega) (by norm_num at hb2 ⊢; omega)

/-- Witness for C4: the int8 conjunct applied at the concrete pair (-1, 0). -/
theorem int_encoding_order_preserving_witness :
    (-( 2 ^ 7) ≤ (-1 : Int)) ∧ ((-1 : Int) < 2 ^ 7) ∧
    keyLessThan (FromInt8 (-1)) (FromInt8 0) = true :=
  ⟨by norm_num, by norm_num,
    (int_encoding_order_preserving.1 (-1) 0 (by norm_num) (by norm_num)
      (by norm_num) (by norm_num)).mp (by norm_num)⟩

/-- C5: integer constructors of every width and signedness produce
byte-identical 8-byte keys on arguments of equal mathematical value; in
particular the signed and unsigned encodings of 0 coincide, and the most
negative int64 encodes to eight zero bytes. -/
theorem int_encoding_width_agreement :
    (∀ i : Int, -(2 ^ 7) ≤ i → i < 2 ^ 7 → FromInt8 i = FromInt64 i) ∧
    (∀ i : Int, -(2 ^ 15) ≤ i → i < 2 ^ 15 → FromInt16 i = FromInt64 i) ∧
    (∀ i : Int, -(2 ^ 31) ≤ i → i < 2 ^ 31 → FromInt32 i = FromInt64 i) ∧
    (∀ i : Int, -(2 ^ 63) ≤ i → i < 2 ^ 63 → FromInt i = FromInt64 i) ∧
    (∀ u : Nat, u < 2 ^ 8 → FromUint8 u = FromUint64 u) ∧
    (∀ u : Nat, u < 2 ^ 16 → FromUint16 u = FromUint64 u) ∧
    (∀ u : Nat, u < 2 ^ 32 → FromUint32 u = FromUint64 u) ∧
    (∀ u : Nat, u < 2 ^ 64 → FromUint u = FromUint64 u) ∧
    (∀ n : Nat, n < 2 ^ 63 → FromUint64 n = FromInt64 (n : Int)) ∧
    FromInt64 0 = FromUint64 0 ∧
    FromInt64 (-(2 ^ 63)) = [0, 0, 0, 0, 0, 0, 0, 0] := by
  refine ⟨fun i _ _ => rfl, fun i _ _ => rfl, fun i _ _ => rfl, fun i _ _ => rfl,
    fun u _ => rfl, fun u _ => rfl, fun u _ => rfl, fun u _ => rfl, ?_, ?_, ?_⟩
  · intro n hn
    show putUint64BE ((n % 2 ^ 64 + 2 ^ 63) % 2 ^ 64)
        = putUint64BE ((toUint64 (n : Int) + 2 ^ 63) % 2 ^ 64)
    have harg : (n % 2 ^ 64 + 2 ^ 63) % 2 ^ 64
        = (toUint64 (n : Int) + 2 ^ 63) % 2 ^ 64 := by
      unfold toUint64
      omega
    rw [harg]
  · decide
  · decide

/-- Witness for C5: the signed/unsigned agreement conjunct applied at 5. -/
theorem int_encoding_width_agreement_witness :
    ((5 : Nat) < 2 ^ 63) ∧ FromUint64 5 = FromInt64 (5 : Int) :=
  ⟨by norm_num,
    (int_encoding_width_agreement.2.2.2.2.2.2.2.2.1) 5 (by norm_num)⟩

/-! ## `Key.String` display (`key.go`) -/

/-- The constant `hex = "0123456789ABCDEF"` from `Key.String`. -/
def hexTable : List Char :=
  ['0', '1', '2', '3', '4', '5', '6', '7', '8', '9', 'A', 'B', 'C', 'D', 'E', 'F']

/-- `hex[b>>4]` from `Key.String` (for a Go byte, `b>>4 < 16`). -/
def hexHi (b : Nat) : Char := hexTable.getD (b / 16) '0'

/-- `hex[b&0x0F]` from `Key.String`. -/
def hexLo (b : Nat) : Char := hexTable.getD (b % 16) '0'

/-- One byte as its two-character uppercase hex tuple. -/
def hexPair (b : Nat) : String := String.mk [hexHi b, hexLo b]

/-- The `for i, b := range k` loop of `Key.String`, with the
`strings.Builder` threaded through: a comma before every byte except the
first, then the two hex characters of the byte. -/
def keyStringLoop : List Nat → Nat → String → String
  | [], _, sb => sb
  | b :: rest, i, sb =>
      keyStringLoop rest (i + 1)
        (((if 0 < i then sb.push ',' else sb).push (hexHi b)).push (hexLo b))

/-- `Key.String` from `key.go`: `"[]"` for an empty key, otherwise `'['`,
the loop above, then `']'`. -/
def keyString (k : List Nat) : String :=
  if k.length = 0 then "[]"
  else (keyStringLoop k 0 (String.mk ['['])).push ']'

/-- The spec's rendering, stated as in §6: uppercase two-digit hex tuples
separated by commas, surrounded by square brackets; `"[]"` when empty. -/
def specHexTuples : List Nat → String
  | [] => ""
  | [b] => hexPair b
  | b :: rest => hexPair b ++ "," ++ specHexTuples rest

/-- The spec's whole-key rendering (refinement reference for `keyString`). -/
def specKeyDisplay (k : List Nat) : String :=
  if k = [] then "[]" else "[" ++ specHexTuples k ++ "]"

/-- Comma-prefixed tail rendering, used to state the loop invariant. -/
def tailTuples : List Nat → String
  | [] => ""
  | b :: rest => ("," ++ hexPair b) ++ tailTuples rest

theorem specHexTuples_cons : ∀ (bs : List Nat) (b : Nat),
    specHexTuples (b :: bs) = hexPair b ++ tailTuples bs := by
  intro bs
  induction bs with
  | nil =>
    intro b
    apply String.ext
    simp [specHexTuples, tailTuples, String.data_append]
  | cons c cs ih =>
    intro b
    apply String.ext
    rw [show specHexTuples (b :: c :: cs)
        = hexPair b ++ "," ++ specHexTuples (c :: cs) from rfl, ih c]
    simp [tailTuples, String.data_append]

theorem keyStringLoop_pos (rest : List Nat) :
    ∀ (i : Nat) (sb : String), 0 < i →
      keyStringLoop rest i sb = sb ++ tailTuples rest := by
  induction rest with
  | nil =>
    intro i sb hi
    apply String.ext
    simp [keyStringLoop, tailTuples, String.data_append]
  | cons b bs ih =>
    intro i sb hi
    apply String.ext
    rw [keyStringLoop, if_pos hi, ih (i + 1) _ (by omega)]
    simp [tailTuples, hexPair, String.data_append, String.data_push]

/-- C8: `Key.String` renders the empty key as two brackets and a non-empty
key as its bytes in uppercase two-digit hex, comma-separated inside square
brackets (i.e. exactly the spec's rendering), including the two required
concrete examples. -/
theorem keyString_displays_spec :
    (∀ k : List Nat, keyString k = specKeyDisplay k) ∧
    keyString [1, 171, 0] = "[01,AB,00]" ∧
    keyString [] = "[]" := by
  refine ⟨?_, by decide, by decide⟩
  intro k
  cases k with
  | nil => rfl
  | cons b bs =>
    have h1 : "[" = String.mk ['['] := rfl
    have h2 : "]" = String.mk [']'] := rfl
    unfold keyString specKeyDisplay
    rw [if_neg (by simp), if_neg (by simp)]
    apply String.ext
    rw [keyStringLoop, if_neg (by omega), keyStringLoop_pos bs 1 _ (by omega),
      specHexTuples_cons bs b, h1, h2]
    simp [hexPair, String.data_append, String.data_push]

/-! ## `FromBytes` / `Key.Bytes` (`key.go`) with explicit slice identity

To express the aliasing claim (mutating the caller's slice after `FromBytes`
does not change the Key), byte slices are given identities in a small heap:
a slice is an index into a list of contents.  `FromBytes` and `Key.Bytes`
allocate a fresh slice and copy the contents, exactly as the Go code does
with `make` + `copy`. -/

def Mem : Type := List (List Nat)

/-- Reading the contents of slice `id` (an unallocated id reads as empty). -/
def readSlice (m : Mem) (id : Nat) : List Nat := m.getD id []

/-- `make([]byte, ...)` with given contents: a fresh identity. -/
def allocSlice (m : Mem) (content : List Nat) : Mem × Nat :=
  (List.append m [content], m.length)

/-- `FromBytes` from `key.go`: `kb := make([]byte, len(b)); copy(kb, b)` —
a fresh slice holding a copy of the argument's current contents. -/
def goFromBytes (m : Mem) (b : Nat) : Mem × Nat := allocSlice m (readSlice m b)

/-- `Key.Bytes` from `key.go`: a fresh slice holding a copy of the key. -/
def goKeyBytes (m : Mem) (k : Nat) : Mem × Nat := allocSlice m (readSlice m k)

/-- The caller mutating one byte of its slice (`b[i] = v`). -/
def writeSlice (m : Mem) (id i v : Nat) : Mem :=
  m.set id ((m.getD id []).set i v)

theorem readSlice_alloc_self (m : Mem) (c : List Nat) :
    readSlice (allocSlice m c).1 (allocSlice m c).2 = c := by
  show (List.append m [c]).getD m.length [] = c
  induction m with
  | nil => rfl
  | cons x xs _ => simp

theorem readSlice_alloc_old (m : Mem) (c : List Nat) (j : Nat) (h : j < m.length) :
    readSlice (allocSlice m c).1 j = readSlice m j := by
  show (List.append m [c]).getD j [] = m.getD j []
  induction m generalizing j with
  | nil => simp at h
  | cons x xs ih =>
    cases j with
    | zero => rfl
    | succ j => simpa using ih j (by simpa using h)

theorem readSlice_write_other (m : Mem) (id i v j : Nat) (h : id ≠ j) :
    readSlice (writeSlice m id i v) j = readSlice m j := by
  show (m.set id ((m.getD id []).set i v)).getD j [] = m.getD j []
  induction m generalizing id j with
  | nil => rfl
  | cons x xs ih =>
    cases id with
    | zero =>
      cases j with
      | zero => exact absurd rfl h
      | succ j => rfl
    | succ id =>
      cases j with
      | zero => rfl
      | succ j => simpa using ih id j (by omega)

/-- C9: `FromBytes` round-trips (`Bytes` of the fresh key reads back the
original contents) and is an independent copy: mutating the caller's slice
`b` after the call does not change what the Key contains. -/
theorem fromBytes_roundtrip_independent (m : Mem) (b : Nat) (hb : b < m.length)
    (i v : Nat) :
    readSlice (goFromBytes m b).1 (goFromBytes m b).2 = readSlice m b ∧
    readSlice
        (goKeyBytes (writeSlice (goFromBytes m b).1 b i v)
          (goFromBytes m b).2).1
        (goKeyBytes (writeSlice (goFromBytes m b).1 b i v)
          (goFromBytes m b).2).2
      = readSlice m b := by
  constructor
  · exact readSlice_alloc_self m (readSlice m b)
  · have e : goKeyBytes (writeSlice (goFromBytes m b).1 b i v) (goFromBytes m b).2
        = allocSlice (writeSlice (goFromBytes m b).1 b i v)
            (readSlice (writeSlice (goFromBytes m b).1 b i v) (goFromBytes m b).2) := rfl
    rw [e, readSlice_alloc_self,
      readSlice_write_other _ _ _ _ _ (show b ≠ (goFromBytes m b).2 by
        show b ≠ m.length
        omega)]
    exact readSlice_alloc_self m (readSlice m b)

/-- Witness for C9 at a one-slice heap holding `[1, 2, 3]`. -/
theorem fromBytes_roundtrip_independent_witness :
    readSlice (goFromBytes [[1, 2, 3]] 0).1 (goFromBytes [[1, 2, 3]] 0).2
        = readSlice [[1, 2, 3]] 0 ∧
    readSlice
        (goKeyBytes (writeSlice (goFromBytes [[1, 2, 3]] 0).1 0 0 9)
          (goFromBytes [[1, 2, 3]] 0).2).1
        (goKeyBytes (writeSlice (goFromBytes [[1, 2, 3]] 0).1 0 0 9)
          (goFromBytes [[1, 2, 3]] 0).2).2
      = readSlice [[1, 2, 3]] 0 :=
  fromBytes_roundtrip_independent [[1, 2, 3]] 0 (by decide) 0 9

/-! ## The value-set collaborator `set3.Set3` (external; deduplicated set,
modelled as a list with membership-guarded insertion) -/

/-- `Set3.Add`: insert if not already present. -/
def setAdd {T : Type} [DecidableEq T] (s : List T) (v : T) : List T :=
  if v ∈ s then s else s ++ [v]

/-- `Set3.Remove`: drop the element if present (no-op otherwise). -/
def setRemove {T : Type} [DecidableEq T] (s : List T) (v : T) : List T := s.erase v

/-- `Set3.AddAll(other)`: add every element of `other` into the receiver. -/
def setAddAll {T : Type} [DecidableEq T] (s other : List T) : List T :=
  other.foldl setAdd s

theorem mem_setAdd {T : Type} [DecidableEq T] (s : List T) (w v : T) :
    v ∈ setAdd s w ↔ v ∈ s ∨ v = w := by
  unfold setAdd
  split <;> simp_all

theorem mem_setAddAll {T : Type} [DecidableEq T] :
    ∀ (other s : List T) (v : T), v ∈ setAddAll s other ↔ v ∈ s ∨ v ∈ other := by
  intro other
  induction other with
  | nil => simp [setAddAll]
  | cons w ws ih =>
    intro s v
    show v ∈ setAddAll (setAdd s w) ws ↔ _
    rw [ih, mem_setAdd]
    simp
    tauto

/-! ## Order facts about `Key.Equal` and `Key.LessThan` -/

theorem keyEqual_iff : ∀ a b : List Nat, keyEqual a b = true ↔ a = b := by
  intro a
  induction a with
  | nil => intro b; cases b <;> simp [keyEqual]
  | cons x xs ih =>
    intro b
    cases b with
    | nil => simp [keyEqual]
    | cons y ys => simp [keyEqual, ih]

theorem keyLessThan_irrefl : ∀ a : List Nat, keyLessThan a a = false := by
  intro a
  induction a with
  | nil => rfl
  | cons x xs ih => simp [keyLessThan, ih]

theorem keyLessThan_asymm :
    ∀ a b : List Nat, keyLessThan a b = true → keyLessThan b a = false := by
  intro a
  induction a with
  | nil =>
    intro b h
    cases b with
    | nil => simp [keyLessThan] at h
    | cons y ys => rfl
  | cons x xs ih =>
    intro b h
    cases b with
    | nil => simp [keyLessThan] at h
    | cons y ys =>
      rcases Nat.lt_trichotomy x y with hxy | hxy | hxy
      · show (if y < x then true else if x < y then false else keyLessThan ys xs) = false
        rw [if_neg (by omega), if_pos hxy]
      · subst hxy
        have h2 : keyLessThan xs ys = true := by
          simpa [keyLessThan] using h
        show (if x < x then true else if x < x then false else keyLessThan ys xs) = false
        rw [if_neg (by omega), if_neg (by omega)]
        exact ih ys h2
      · exfalso
        have : keyLessThan (x :: xs) (y :: ys) = false := by
          show (if x < y then true else if y < x then false else keyLessThan xs ys) = false
          rw [if_neg (by omega), if_pos hxy]
        rw [this] at h
        cases h


theorem keyLessThan_trans :
    ∀ a b c : List Nat, keyLessThan a b = true → keyLessThan b c = true →
      keyLessThan a c = true := by
  intro a
  induction a with
  | nil =>
    intro b c hab hbc
    cases c with
    | nil =>
      cases b with
      | nil => simp [keyLessThan] at hab
      | cons y ys => simp [keyLessThan] at hbc
    | cons z zs => simp [keyLessThan]
  | cons x xs ih =>
    intro b c hab hbc
    cases b with
    | nil => simp [keyLessThan] at hab
    | cons y ys =>
      cases c with
      | nil => simp [keyLessThan] at hbc
      | cons z zs =>
        show (if x < z then true else if z < x then false else keyLessThan xs zs) = true
        have hab' : (if x < y then true else if y < x then false
            else keyLessThan xs ys) = true := hab
        have hbc' : (if y < z then true else if z < y then false
            else keyLessThan ys zs) = true := hbc
        rcases Nat.lt_trichotomy x y with h1 | h1 | h1
        · rcases Nat.lt_trichotomy y z with h2 | h2 | h2
          · rw [if_pos (by omega)]
          · rw [if_pos (by omega)]
          · rw [if_neg (by omega), if_pos (by omega)] at hbc'
            cases hbc'
        · subst h1
          rcases Nat.lt_trichotomy x z with h2 | h2 | h2
          · rw [if_pos h2]
          · subst h2
            rw [if_neg (by omega), if_neg (by omega)] at hab' hbc' ⊢
            exact ih ys zs hab' hbc'
          · rw [if_neg (by omega), if_pos h2] at hbc'
            cases hbc'
        · rw [if_neg (by omega), if_pos h1] at hab'
          cases hab'

/-- The boolean inclusive comparison used throughout the range queries. -/
theorem keyLE_trans (a b c : List Nat)
    (hab : (keyLessThan a b || keyEqual a b) = true)
    (hbc : (keyLessThan b c || keyEqual b c) = true) :
    (keyLessThan a c || keyEqual a c) = true := by
  simp only [Bool.or_eq_true] at hab hbc ⊢
  rcases hab with hab | hab
  · rcases hbc with hbc | hbc
    · exact Or.inl (keyLessThan_trans a b c hab hbc)
    · rw [keyEqual_iff] at hbc
      subst hbc
      exact Or.inl hab
  · rw [keyEqual_iff] at hab
    subst hab
    exact hbc

theorem keyLE_not_with_gt (a b : List Nat) (h : keyLessThan b a = true) :
    (keyLessThan a b || keyEqual a b) = false := by
  simp only [Bool.or_eq_false_iff]
  constructor
  · exact keyLessThan_asymm b a h
  · by_contra hc
    simp only [Bool.not_eq_false] at hc
    rw [keyEqual_iff] at hc
    subst hc
    rw [keyLessThan_irrefl] at h
    cases h

/-! ## The array-based multi-map (the default `MultiMap` implementation)

State: the `data` slice of key/value-set pairs; a pair's set pointer may be
nil (`Option`).  Every operation scans for the first entry whose key is
`Key.Equal` to the argument, exactly as the Go loops do. -/

/-- One `kvp[T]` entry: cloned key bytes and the (possibly nil) value set. -/
abbrev MMData (T : Type) : Type := List (List Nat × Option (List T))

/-- `AddValue`: on the first matching entry, allocate the set if nil and add
`v`; if no entry matches, append a fresh entry whose set holds only `v`. -/
def mmAddValue {T : Type} [DecidableEq T] :
    MMData T → List Nat → T → MMData T
  | [], key, v => [(key, some (setAdd [] v))]
  | (k, val) :: rest, key, v =>
    if keyEqual k key then (k, some (setAdd (val.getD []) v)) :: rest
    else (k, val) :: mmAddValue rest key v

/-- `RemoveValue`: on the first matching entry, remove `v` from the set when
the set is non-nil; the entry itself always stays. -/
def mmRemoveValue {T : Type} [DecidableEq T] :
    MMData T → List Nat → T → MMData T
  | [], _, _ => []
  | (k, val) :: rest, key, v =>
    if keyEqual k key then
      (k, match val with
          | none => none
          | some s => some (setRemove s v)) :: rest
    else (k, val) :: mmRemoveValue rest key v

/-- `ContainsKey`: true iff some entry's key is `Key.Equal` to the argument. -/
def mmContainsKey {T : Type} : MMData T → List Nat → Bool
  | [], _ => false
  | (k, _) :: rest, key => if keyEqual k key then true else mmContainsKey rest key

/-- `ValuesFor`: the (clone of the) first matching entry's set, or empty. -/
def mmValuesFor {T : Type} : MMData T → List Nat → List T
  | [], _ => []
  | (k, val) :: rest, key =>
    if keyEqual k key then val.getD [] else mmValuesFor rest key

/-- The loop body of `ValuesBetweenInclusive`: if the entry's key lies in
the inclusive range and its set is non-nil, `AddAll` it into the result. -/
def betweenStep {T : Type} [DecidableEq T] (fromK toK : List Nat)
    (result : List T) (kv : List Nat × Option (List T)) : List T :=
  if (keyLessThan kv.1 toK || keyEqual kv.1 toK)
      && (keyLessThan fromK kv.1 || keyEqual fromK kv.1) then
    match kv.2 with
    | some s => setAddAll result s
    | none => result
  else result

/-- `ValuesBetweenInclusive`: fold over `data` starting from a fresh empty
result set. -/
def mmValuesBetweenInclusive {T : Type} [DecidableEq T]
    (data : MMData T) (fromK toK : List Nat) : List T :=
  data.foldl (betweenStep fromK toK) []

/-- `Node.RemoveValue` from `art/common_node_functions.go`: when the node
has a set whose size is at most 1 the whole set is discarded (without
checking that `v` is its element); otherwise `v` is removed from the set. -/
def nodeRemoveValue {T : Type} [DecidableEq T]
    (value : Option (List T)) (v : T) : Option (List T) :=
  match value with
  | none => none
  | some s => if s.length ≤ 1 then none else some (setRemove s v)

/-- C2 (code evaluation at the failing input): a node whose value set is the
singleton containing 1, asked to remove the absent value 2, drops the whole
set and reports no value, although 2 is not an element. -/
theorem nodeRemoveValue_drops_singleton :
    nodeRemoveValue (some [1]) (2 : Nat) = none ∧ (2 : Nat) ∉ [1] := by
  constructor
  · rfl
  · decide

/-- C1 (counterexample): in the array-based map, adding value 7 under key
`[0]` and then removing it again leaves the stored set empty, yet
`ContainsKey` still reports true — contradicting the claim that it must
then report false. -/
theorem containsKey_after_exhaustive_remove :
    mmContainsKey (mmRemoveValue (mmAddValue ([] : MMData Nat) [0] 7) [0] 7) [0]
        = true ∧
    mmValuesFor (mmRemoveValue (mmAddValue ([] : MMData Nat) [0] 7) [0] 7) [0]
        = [] := by
  constructor
  · rfl
  · rfl

theorem keyEqual_refl (k : List Nat) : keyEqual k k = true :=
  (keyEqual_iff k k).mpr rfl

/-- C1 (amended): `ContainsKey` reports exactly whether an entry for the key
exists in the backing array; `AddValue` establishes it, and `RemoveValue`
never changes it (the entry survives even when its value set is emptied). -/
theorem mmContainsKey_tracks_entries {T : Type} [DecidableEq T] :
    (∀ (data : MMData T) (key : List Nat) (v : T),
        mmContainsKey (mmAddValue data key v) key = true) ∧
    (∀ (data : MMData T) (key key2 : List Nat) (v : T),
        mmContainsKey (mmRemoveValue data key2 v) key = mmContainsKey data key) ∧
    (∀ (data : MMData T) (key : List Nat),
        mmContainsKey data key = true ↔ ∃ p ∈ data, p.1 = key) := by
  refine ⟨?_, ?_, ?_⟩
  · intro data key v
    induction data with
    | nil => simp [mmAddValue, mmContainsKey, keyEqual_refl]
    | cons p rest ih =>
      obtain ⟨k, val⟩ := p
      by_cases h : keyEqual k key <;>
        simp [mmAddValue, mmContainsKey, h, ih]
  · intro data key key2 v
    induction data with
    | nil => rfl
    | cons p rest ih =>
      obtain ⟨k, val⟩ := p
      by_cases h : keyEqual k key2 <;>
        by_cases h2 : keyEqual k key <;>
        simp [mmRemoveValue, mmContainsKey, h, h2, ih]
  · intro data key
    induction data with
    | nil => simp [mmContainsKey]
    | cons p rest ih =>
      obtain ⟨k, val⟩ := p
      by_cases h : keyEqual k key
      · rw [keyEqual_iff] at h
        subst h
        simp [mmContainsKey, keyEqual_refl]
      · have hne : k ≠ key := fun hc => h ((keyEqual_iff k key).mpr hc)
        simp [mmContainsKey, h, ih, hne]

theorem betweenStep_fold_mem {T : Type} [DecidableEq T] (fromK toK : List Nat) :
    ∀ (data : MMData T) (acc : List T) (v : T),
      v ∈ data.foldl (betweenStep fromK toK) acc ↔
        v ∈ acc ∨ ∃ p ∈ data,
          ((keyLessThan p.1 toK || keyEqual p.1 toK)
            && (keyLessThan fromK p.1 || keyEqual fromK p.1)) = true ∧
          ∃ s, p.2 = some s ∧ v ∈ s := by
  intro data
  induction data with
  | nil => simp
  | cons p rest ih =>
    intro acc v
    obtain ⟨k, val⟩ := p
    rw [List.foldl_cons, ih]
    have hstep : v ∈ betweenStep fromK toK acc (k, val) ↔
        v ∈ acc ∨
          (((keyLessThan k toK || keyEqual k toK)
            && (keyLessThan fromK k || keyEqual fromK k)) = true ∧
           ∃ s, val = some s ∧ v ∈ s) := by
      unfold betweenStep
      by_cases hc : ((keyLessThan k toK || keyEqual k toK)
          && (keyLessThan fromK k || keyEqual fromK k)) = true
      · rw [if_pos hc]
        cases val with
        | none => simp [hc]
        | some s => simp [hc, mem_setAddAll]
      · rw [if_neg hc]
        simp [hc]
    rw [hstep]
    simp only [List.mem_cons]
    constructor
    · rintro ((h | h) | h)
      · exact Or.inl h
      · exact Or.inr ⟨(k, val), by simp, h.1, h.2⟩
      · obtain ⟨q, hq, hcond, hs⟩ := h
        exact Or.inr ⟨q, by simp [hq], hcond, hs⟩
    · rintro (h | ⟨q, hq, hcond, hs⟩)
      · exact Or.inl (Or.inl h)
      · rcases hq with hq | hq
        · subst hq
          exact Or.inl (Or.inr ⟨hcond, hs⟩)
        · exact Or.inr ⟨q, hq, hcond, hs⟩

/-- C3: a value is in `ValuesBetweenInclusive(from, to)` exactly when some
stored entry's key `k` satisfies `from ≤ k` and `k ≤ to` in the bytewise
lexicographic order and the value is in that entry's set (so the result is
the union of the qualifying sets; the model function is total, which is the
shallow form of the non-nil-result contract).  When `from > to` the result
is empty. -/
theorem valuesBetweenInclusive_spec {T : Type} [DecidableEq T] :
    (∀ (data : MMData T) (fromK toK : List Nat) (v : T),
        v ∈ mmValuesBetweenInclusive data fromK toK ↔
          ∃ p ∈ data,
            (keyLessThan fromK p.1 = true ∨ fromK = p.1) ∧
            (keyLessThan p.1 toK = true ∨ p.1 = toK) ∧
            ∃ s, p.2 = some s ∧ v ∈ s) ∧
    (∀ (data : MMData T) (fromK toK : List Nat),
        keyLessThan toK fromK = true →
        mmValuesBetweenInclusive data fromK toK = []) := by
  constructor
  · intro data fromK toK v
    unfold mmValuesBetweenInclusive
    rw [betweenStep_fold_mem]
    simp only [List.not_mem_nil, false_or]
    constructor
    · rintro ⟨p, hp, hcond, hs⟩
      simp only [Bool.and_eq_true, Bool.or_eq_true] at hcond
      refine ⟨p, hp, ?_, ?_, hs⟩
      · rcases hcond.2 with h | h
        · exact Or.inl h
        · exact Or.inr ((keyEqual_iff _ _).mp h)
      · rcases hcond.1 with h | h
        · exact Or.inl h
        · exact Or.inr ((keyEqual_iff _ _).mp h)
    · rintro ⟨p, hp, h1, h2, hs⟩
      refine ⟨p, hp, ?_, hs⟩
      simp only [Bool.and_eq_true, Bool.or_eq_true]
      constructor
      · rcases h2 with h | h
        · exact Or.inl h
        · exact Or.inr ((keyEqual_iff _ _).mpr h)
      · rcases h1 with h | h
        · exact Or.inl h
        · exact Or.inr ((keyEqual_iff _ _).mpr h)
  · intro data fromK toK hgt
    unfold mmValuesBetweenInclusive
    have hstep : ∀ kv : List Nat × Option (List T),
        betweenStep fromK toK [] kv = ([] : List T) := by
      intro kv
      unfold betweenStep
      rw [if_neg]
      intro hc
      simp only [Bool.and_eq_true] at hc
      have := keyLE_trans fromK kv.1 toK hc.2 hc.1
      rw [keyLE_not_with_gt fromK toK hgt] at this
      cases this
    induction data with
    | nil => rfl
    | cons p rest ih =>
      rw [List.foldl_cons, hstep p]
      exact ih

/-- Witness for C3: the empty-range conjunct at a concrete one-entry map
with `from = [1] > to = [0]`. -/
theorem valuesBetweenInclusive_spec_witness :
    keyLessThan [0] [1] = true ∧
    mmValuesBetweenInclusive ([([0], some [5])] : MMData Nat) [1] [0] = [] :=
  ⟨by decide,
    valuesBetweenInclusive_spec.2 [([0], some [5])] [1] [0] (by decide)⟩

/-! ## `Node512` / `Node1024` binary search (`art/get_child.go`)

The two receivers' bodies are textually identical; the embedding takes the
whole backing array `fkb` (length 50 for Node512, 107 for Node1024,
including stale entries at indices ≥ `nc = numChildren`) as a parameter. -/

/-- The `for lo < hi` halving loop of `binarySearchKeyByte`. -/
def bsLoop (fkb : List Nat) (b : Nat) (lo hi : Nat) : Nat :=
  if h : lo < hi then
    if fkb.getD ((lo + hi) / 2) 0 < b then bsLoop fkb b ((lo + hi) / 2 + 1) hi
    else bsLoop fkb b lo ((lo + hi) / 2)
  else lo
termination_by hi - lo
decreasing_by
  · omega
  · omega

/-- `binarySearchKeyByte` from `art/get_child.go`: run the loop over the
live region `[0, numChildren)`, then check the final position against the
WHOLE array (`lo < len(firstKeyByte)`), returning the position or -1. -/
def binarySearchKeyByte (fkb : List Nat) (nc : Nat) (b : Nat) : Int :=
  let lo := bsLoop fkb b 0 nc
  if lo < fkb.length ∧ fkb.getD lo 0 = b then (lo : Int) else -1

theorem bsLoop_spec (fkb : List Nat) (b : Nat) :
    ∀ (fuel lo hi : Nat), hi - lo ≤ fuel → lo ≤ hi →
      (∀ j, j < hi → ∀ i, i < j → fkb.getD i 0 < fkb.getD j 0) →
      lo ≤ bsLoop fkb b lo hi ∧ bsLoop fkb b lo hi ≤ hi ∧
      (∀ i, lo ≤ i → i < bsLoop fkb b lo hi → fkb.getD i 0 < b) ∧
      (∀ i, bsLoop fkb b lo hi ≤ i → i < hi → b ≤ fkb.getD i 0) := by
  intro fuel
  induction fuel with
  | zero =>
    intro lo hi hfuel hle _
    have heq : lo = hi := by omega
    subst heq
    rw [bsLoop, dif_neg (by omega)]
    refine ⟨Nat.le_refl _, Nat.le_refl _, ?_, ?_⟩ <;> intro i h1 h2 <;> omega
  | succ fuel ih =>
    intro lo hi hfuel hle hsort
    by_cases h : lo < hi
    · rw [bsLoop, dif_pos h]
      have hmid1 : lo ≤ (lo + hi) / 2 := by omega
      have hmid2 : (lo + hi) / 2 < hi := by omega
      by_cases hcmp : fkb.getD ((lo + hi) / 2) 0 < b
      · rw [if_pos hcmp]
        obtain ⟨r1, r2, r3, r4⟩ :=
          ih ((lo + hi) / 2 + 1) hi (by omega) (by omega) hsort
        refine ⟨by omega, r2, ?_, r4⟩
        intro i hi1 hi2
        by_cases hle2 : i ≤ (lo + hi) / 2
        · rcases Nat.lt_or_ge i ((lo + hi) / 2) with hlt | hge
          · exact lt_trans (hsort ((lo + hi) / 2) hmid2 i hlt) hcmp
          · have : i = (lo + hi) / 2 := by omega
            subst this
            exact hcmp
        · exact r3 i (by omega) hi2
      · rw [if_neg hcmp]
        obtain ⟨r1, r2, r3, r4⟩ :=
          ih lo ((lo + hi) / 2) (by omega) (by omega)
            (fun j hj i hij => hsort j (by omega) i hij)
        refine ⟨r1, by omega, r3, ?_⟩
        intro i hi1 hi2
        rcases Nat.lt_or_ge i ((lo + hi) / 2) with hlt | hge
        · exact r4 i hi1 hlt
        · rcases Nat.lt_or_ge ((lo + hi) / 2) i with hlt2 | hge2
          · have hb : b ≤ fkb.getD ((lo + hi) / 2) 0 := by omega
            exact le_trans hb (le_of_lt (hsort i hi2 ((lo + hi) / 2) hlt2))
          · have : i = (lo + hi) / 2 := by omega
            subst this
            omega
    · rw [bsLoop, dif_neg h]
      refine ⟨Nat.le_refl _, by omega, ?_, ?_⟩ <;> intro i h1 h2 <;> omega

/-- Under the sorted-live-region invariant, when `b` occurs among the live
entries `binarySearchKeyByte` returns its (unique) live index. -/
theorem binarySearch_found (fkb : List Nat) (nc b : Nat)
    (hsort : ∀ j, j < nc → ∀ i, i < j → fkb.getD i 0 < fkb.getD j 0)
    (hnc : nc ≤ fkb.length)
    (hex : ∃ i, i < nc ∧ fkb.getD i 0 = b) :
    ∃ i : Nat, binarySearchKeyByte fkb nc b = (i : Int) ∧ i < nc ∧
      fkb.getD i 0 = b := by
  obtain ⟨i0, hi0, hbi0⟩ := hex
  obtain ⟨r1, r2, r3, r4⟩ := bsLoop_spec fkb b nc 0 nc (by omega) (by omega) hsort
  set r := bsLoop fkb b 0 nc with hr
  have hi0r : r ≤ i0 := by
    by_contra hc
    have := r3 i0 (by omega) (by omega)
    omega
  have hrnc : r < nc := by omega
  have hge : b ≤ fkb.getD r 0 := r4 r (Nat.le_refl r) hrnc
  have heq : fkb.getD r 0 = b := by
    rcases Nat.lt_or_ge r i0 with hlt | hge2
    · have := hsort i0 hi0 r hlt
      omega
    · have : r = i0 := by omega
      subst this
      exact hbi0
  refine ⟨r, ?_, hrnc, heq⟩
  unfold binarySearchKeyByte
  rw [← hr, if_pos ⟨by omega, heq⟩]

/-- Under the same invariant, when `b` is absent from the live entries the
result is -1 — unless every live entry is below `b` and the stale entry at
index `nc` happens to equal `b`, in which case the stale index `nc` is
returned. -/
theorem binarySearch_notfound (fkb : List Nat) (nc b : Nat)
    (hsort : ∀ j, j < nc → ∀ i, i < j → fkb.getD i 0 < fkb.getD j 0)
    (_hnc : nc ≤ fkb.length)
    (habs : ∀ i, i < nc → fkb.getD i 0 ≠ b) :
    ((nc < fkb.length ∧ (∀ i, i < nc → fkb.getD i 0 < b) ∧ fkb.getD nc 0 = b) →
        binarySearchKeyByte fkb nc b = (nc : Int)) ∧
    (¬(nc < fkb.length ∧ (∀ i, i < nc → fkb.getD i 0 < b) ∧ fkb.getD nc 0 = b) →
        binarySearchKeyByte fkb nc b = -1) := by
  obtain ⟨r1, r2, r3, r4⟩ := bsLoop_spec fkb b nc 0 nc (by omega) (by omega) hsort
  set r := bsLoop fkb b 0 nc with hr
  constructor
  · rintro ⟨hlen, hall, hstale⟩
    have hrnc : r = nc := by
      by_contra hc
      have hrlt : r < nc := by omega
      have := r4 r (Nat.le_refl r) hrlt
      have := hall r hrlt
      omega
    unfold binarySearchKeyByte
    rw [← hr, hrnc, if_pos ⟨hlen, hstale⟩]
  · intro hncond
    rcases Nat.lt_or_ge r nc with hrlt | hrge
    · have hge : b ≤ fkb.getD r 0 := r4 r (Nat.le_refl r) hrlt
      have hne : fkb.getD r 0 ≠ b := habs r hrlt
      unfold binarySearchKeyByte
      rw [← hr, if_neg]
      rintro ⟨_, hc⟩
      exact hne hc
    · have hrnc : r = nc := by omega
      have hall : ∀ i, i < nc → fkb.getD i 0 < b := by
        intro i hi
        exact r3 i (by omega) (by omega)
      unfold binarySearchKeyByte
      rw [← hr, hrnc, if_neg]
      rintro ⟨hlen, hstale⟩
      exact hncond ⟨hlen, hall, hstale⟩

/-- C10 (counterexample): on a Node512-sized array whose first (stale) entry
is 7 while `numChildren = 0` (no live entries at all), `binarySearchKeyByte 7`
returns the stale index 0 instead of the -1 the claim demands: the final
bounds check uses the full array length, not the live count. -/
theorem binarySearch_stale_hit :
    binarySearchKeyByte (7 :: List.replicate 49 0) 0 7 = 0 ∧
    ¬binarySearchKeyByte (7 :: List.replicate 49 0) 0 7 = -1 := by
  have hloop : bsLoop (7 :: List.replicate 49 0) 7 0 0 = 0 := by
    rw [bsLoop, dif_neg (by omega)]
  have hval : binarySearchKeyByte (7 :: List.replicate 49 0) 0 7 = 0 := by
    show (if bsLoop (7 :: List.replicate 49 0) 7 0 0
            < (7 :: List.replicate 49 0).length ∧
          (7 :: List.replicate 49 0).getD (bsLoop (7 :: List.replicate 49 0) 7 0 0) 0
            = 7
        then ((bsLoop (7 :: List.replicate 49 0) 7 0 0 : Nat) : Int) else -1) = 0
    rw [hloop]
    decide
  exact ⟨hval, by rw [hval]; decide⟩

/-- C10 (amended): with strictly ascending live entries, a live occurrence of
`b` is found at its live index; when `b` is absent from the live entries the
result is -1 — except that when every live entry is below `b` and the stale
entry at index `numChildren` equals `b`, the out-of-live-range index
`numChildren` is returned. -/
theorem binarySearchKeyByte_spec (fkb : List Nat) (nc b : Nat)
    (hsort : ∀ j, j < nc → ∀ i, i < j → fkb.getD i 0 < fkb.getD j 0)
    (hnc : nc ≤ fkb.length) :
    ((∃ i, i < nc ∧ fkb.getD i 0 = b) →
      ∃ i : Nat, binarySearchKeyByte fkb nc b = (i : Int) ∧ i < nc ∧
        fkb.getD i 0 = b) ∧
    ((∀ i, i < nc → fkb.getD i 0 ≠ b) →
      ((nc < fkb.length ∧ (∀ i, i < nc → fkb.getD i 0 < b) ∧
          fkb.getD nc 0 = b) →
        binarySearchKeyByte fkb nc b = (nc : Int)) ∧
      (¬(nc < fkb.length ∧ (∀ i, i < nc → fkb.getD i 0 < b) ∧
          fkb.getD nc 0 = b) →
        binarySearchKeyByte fkb nc b = -1)) := by
  constructor
  · exact binarySearch_found fkb nc b hsort hnc
  · exact binarySearch_notfound fkb nc b hsort hnc

/-- Witness for C10: the found-branch at live entries 10, 20, 30 searching
for 20 yields index 1. -/
theorem binarySearchKeyByte_spec_witness :
    ∃ i : Nat, binarySearchKeyByte [10, 20, 30] 3 20 = (i : Int) ∧ i < 3 ∧
      [10, 20, 30].getD i 0 = 20 :=
  (binarySearchKeyByte_spec [10, 20, 30] 3 20 (by decide) (by decide)).1
    ⟨1, by decide, by decide⟩

/-! ## ART nodes and `getChild` (`art/get_child.go`, `art/node_types.go`,
`art/presence_bitmap.go`)

`GN` is the node family; `nilp` is a nil `*Node[T]` pointer.  `leaf` is
`LeafNode` (one child pointer); `lin` carries the shape shared by
Node64/Node128/Node256, whose `getChild` bodies are textually identical
(unsorted first-key-byte array, linear scan); `bin` the shape shared by
Node512/Node1024 (presence bitmap, sorted array, binary search); `full`
the FullNode (bitmap + direct index).  `pfx` is the live part of the
inline prefix buffer (`localPrefix[:prefixLen]`, what
`appendLocalPrefixTo` appends); `fkb` and `children` are the whole backing
arrays including stale tails; a bitmap is its four 64-bit words.  The value
set in the shared header is not consulted by `getChild` and is omitted. -/
inductive GN (T : Type) : Type where
  | nilp : GN T
  | leaf (pfx : List Nat) (child : GN T) : GN T
  | lin (pfx : List Nat) (nc : Nat) (fkb : List Nat)
      (children : List (GN T)) : GN T
  | bin (pfx : List Nat) (bm : List Nat) (nc : Nat) (fkb : List Nat)
      (children : List (GN T)) : GN T
  | full (pfx : List Nat) (bm : List Nat) (children : List (GN T)) : GN T

/-- The `!= nil` test on a child pointer. -/
def isNil {T : Type} : GN T → Bool
  | .nilp => true
  | _ => false

/-- `PresenceBitmap.Get` from `art/presence_bitmap.go`: bit `b & 0x3F` of
word `b >> 6` (`Nat.testBit` is the same mask-and-compare). -/
def bmGet (bm : List Nat) (b : Nat) : Bool := (bm.getD (b / 64) 0).testBit (b % 64)

/-- Modelled from the spec: `longest_common_prefix(a, b) -> usize` — the
function `LongestCommonPrefix` is declared in the multimap package and used
by every `getChild`, but its defining source file is not among the provided
sources (only callers and tests are).  Spec §4.1: "returns the count of
equal leading bytes; 0 if either is empty". -/
def lcpOf : List Nat → List Nat → Nat
  | x :: xs, y :: ys => if x = y then lcpOf xs ys + 1 else 0
  | _, _ => 0

mutual

/-- `getChild` from `art/get_child.go` (dispatch plus the per-variant
bodies).  `cur` is `currentPrefix`, `sk` is `searchKey`.  A Go `nil` result
is `.ok .nilp`; the structural-problem branch of the bin variants, and a
method call on a nil receiver, are `.error ()`. -/
def getChild {T : Type} : GN T → List Nat → List Nat → Except Unit (GN T)
  | .nilp, _, _ => .error ()
  | .leaf pfx child, cur, sk =>
    let lokalKey := cur ++ pfx
    let lcp := lcpOf lokalKey sk
    if lcp < lokalKey.length then .ok .nilp
    else if lcp = sk.length then .ok (.leaf pfx child)
    else if isNil child then .ok .nilp
    else getChild child lokalKey sk
  | .lin pfx nc fkb children, cur, sk =>
    let lokalKey := cur ++ pfx
    let lcp := lcpOf lokalKey sk
    if lcp < lokalKey.length then .ok .nilp
    else if lcp = sk.length then .ok (.lin pfx nc fkb children)
    else scanChildren fkb children nc (sk.getD lcp 0) lokalKey sk
  | .bin pfx bm nc fkb children, cur, sk =>
    let lokalKey := cur ++ pfx
    let lcp := lcpOf lokalKey sk
    if lcp < lokalKey.length then .ok .nilp
    else if lcp = sk.length then .ok (.bin pfx bm nc fkb children)
    else if !bmGet bm (sk.getD lcp 0) then .ok .nilp
    else if 0 ≤ binarySearchKeyByte fkb nc (sk.getD lcp 0) then
      descendAt children (binarySearchKeyByte fkb nc (sk.getD lcp 0)).toNat
        lokalKey sk
    else .error ()
  | .full pfx bm children, cur, sk =>
    let lokalKey := cur ++ pfx
    let lcp := lcpOf lokalKey sk
    if lcp < lokalKey.length then .ok .nilp
    else if lcp = sk.length then .ok (.full pfx bm children)
    else if !bmGet bm (sk.getD lcp 0) then .ok .nilp
    else descendFullAt children (sk.getD lcp 0) lokalKey sk
termination_by n _ _ => sizeOf n

/-- The `for i < numChildren` scan of the lin variants: descend at the first
index with matching key byte and non-nil child; `nil` after the loop. -/
def scanChildren {T : Type} : List Nat → List (GN T) → Nat → Nat → List Nat →
    List Nat → Except Unit (GN T)
  | _, _, 0, _, _, _ => .ok .nilp
  | [], _, _ + 1, _, _, _ => .ok .nilp
  | _ :: _, [], _ + 1, _, _, _ => .ok .nilp
  | kb :: kbs, c :: cs, n + 1, b, lokalKey, sk =>
    if kb = b && !isNil c then getChild c lokalKey sk
    else scanChildren kbs cs n b lokalKey sk
termination_by _ cs _ _ _ _ => sizeOf cs

/-- `n.child[position].getChild(...)` of the bin variants: the unconditional
method call on the child at the found position. -/
def descendAt {T : Type} : List (GN T) → Nat → List Nat → List Nat →
    Except Unit (GN T)
  | [], _, _, _ => .error ()
  | c :: _, 0, lokalKey, sk => getChild c lokalKey sk
  | _ :: cs, n + 1, lokalKey, sk => descendAt cs n lokalKey sk
termination_by cs _ _ _ => sizeOf cs

/-- FullNode descent: nil check on `child[nextKeyByte]`, then the call. -/
def descendFullAt {T : Type} : List (GN T) → Nat → List Nat → List Nat →
    Except Unit (GN T)
  | [], _, _, _ => .ok .nilp
  | c :: _, 0, lokalKey, sk => if isNil c then .ok .nilp else getChild c lokalKey sk
  | _ :: cs, n + 1, lokalKey, sk => descendFullAt cs n lokalKey sk
termination_by cs _ _ _ => sizeOf cs

end

theorem isNil_true_iff {T : Type} (c : GN T) : isNil c = true ↔ c = GN.nilp := by
  cases c <;> simp [isNil]

theorem scanChildren_no_match {T : Type} :
    ∀ (fkb : List Nat) (children : List (GN T)) (nc b : Nat)
      (lk sk : List Nat),
      (∀ i, i < nc →
        ¬(fkb.getD i 0 = b ∧ children.getD i GN.nilp ≠ GN.nilp)) →
      scanChildren fkb children nc b lk sk = .ok .nilp := by
  intro fkb
  induction fkb with
  | nil =>
    intro children nc b lk sk _
    cases nc with
    | zero => simp [scanChildren]
    | succ n => simp [scanChildren]
  | cons kb kbs ih =>
    intro children nc b lk sk h
    cases nc with
    | zero => simp [scanChildren]
    | succ n =>
      cases children with
      | nil => simp [scanChildren]
      | cons c cs =>
        simp only [scanChildren]
        rw [if_neg, ih cs n b lk sk]
        · intro i hi
          exact h (i + 1) (by omega)
        · intro hc
          simp only [Bool.and_eq_true, Bool.not_eq_true', decide_eq_true_eq] at hc
          have h0 := h 0 (by omega)
          simp only [List.getD_cons_zero] at h0
          apply h0
          refine ⟨hc.1, fun he => ?_⟩
          rw [he] at hc
          simp [isNil] at hc

theorem scanChildren_first_match {T : Type} :
    ∀ (fkb : List Nat) (children : List (GN T)) (nc b : Nat)
      (lk sk : List Nat) (i : Nat),
      i < nc → nc ≤ fkb.length → nc ≤ children.length →
      fkb.getD i 0 = b → children.getD i GN.nilp ≠ GN.nilp →
      (∀ j, j < i →
        ¬(fkb.getD j 0 = b ∧ children.getD j GN.nilp ≠ GN.nilp)) →
      scanChildren fkb children nc b lk sk
        = getChild (children.getD i GN.nilp) lk sk := by
  intro fkb
  induction fkb with
  | nil =>
    intro children nc b lk sk i hinc hl1 _ _ _ _
    simp at hl1
    omega
  | cons kb kbs ih =>
    intro children nc b lk sk i hinc hl1 hl2 hkb hchild hleast
    cases nc with
    | zero => omega
    | succ n =>
      cases children with
      | nil => simp at hl2
      | cons c cs =>
        simp only [scanChildren]
        cases i with
        | zero =>
          simp only [List.getD_cons_zero] at hkb hchild ⊢
          rw [if_pos]
          simp only [Bool.and_eq_true, Bool.not_eq_true', decide_eq_true_eq]
          refine ⟨hkb, ?_⟩
          cases c with
          | nilp => exact absurd rfl hchild
          | leaf p ch => rfl
          | lin p nc2 f2 c2 => rfl
          | bin p b2 nc2 f2 c2 => rfl
          | full p b2 c2 => rfl
        | succ i =>
          simp only [List.getD_cons_succ] at hkb hchild ⊢
          rw [if_neg]
          · exact ih cs n b lk sk i (by omega)
              (by simp only [List.length_cons] at hl1; omega)
              (by simp only [List.length_cons] at hl2; omega) hkb hchild
              (fun j hj => by
                have hj2 := hleast (j + 1) (by omega)
                simpa using hj2)
          · intro hc
            simp only [Bool.and_eq_true, Bool.not_eq_true',
              decide_eq_true_eq] at hc
            have h0 := hleast 0 (by omega)
            simp only [List.getD_cons_zero] at h0
            apply h0
            refine ⟨hc.1, fun he => ?_⟩
            rw [he] at hc
            simp [isNil] at hc

/-- C6 (spec-modelled `longest_common_prefix`): the `getChild` case analysis
of `LeafNode` and `Node64` (`lin` also covers the textually identical
Node128/Node256 bodies).  With `lokalKey = path_key ++ prefix` and
`lcp = lcpOf lokalKey searchKey`: a miss when `lcp < len(lokalKey)`; the
node itself when `lcp = len(lokalKey) = len(searchKey)`; otherwise descent
into the child registered for byte `searchKey[lcp]` with
`path_key = lokalKey` (for a leaf: its single child), and nil when no such
child exists. -/
theorem getChild_case_analysis {T : Type} :
    (∀ (pfx : List Nat) (child : GN T) (cur sk : List Nat),
      (lcpOf (cur ++ pfx) sk < (cur ++ pfx).length →
        getChild (GN.leaf pfx child) cur sk = .ok .nilp) ∧
      (lcpOf (cur ++ pfx) sk = (cur ++ pfx).length →
       lcpOf (cur ++ pfx) sk = sk.length →
        getChild (GN.leaf pfx child) cur sk = .ok (GN.leaf pfx child)) ∧
      (lcpOf (cur ++ pfx) sk = (cur ++ pfx).length →
       lcpOf (cur ++ pfx) sk < sk.length →
        (child = GN.nilp → getChild (GN.leaf pfx child) cur sk = .ok .nilp) ∧
        (child ≠ GN.nilp →
          getChild (GN.leaf pfx child) cur sk
            = getChild child (cur ++ pfx) sk))) ∧
    (∀ (pfx : List Nat) (nc : Nat) (fkb : List Nat) (children : List (GN T))
        (cur sk : List Nat),
      (lcpOf (cur ++ pfx) sk < (cur ++ pfx).length →
        getChild (GN.lin pfx nc fkb children) cur sk = .ok .nilp) ∧
      (lcpOf (cur ++ pfx) sk = (cur ++ pfx).length →
       lcpOf (cur ++ pfx) sk = sk.length →
        getChild (GN.lin pfx nc fkb children) cur sk
          = .ok (GN.lin pfx nc fkb children)) ∧
      (lcpOf (cur ++ pfx) sk = (cur ++ pfx).length →
       lcpOf (cur ++ pfx) sk < sk.length →
       nc ≤ fkb.length → nc ≤ children.length →
        ((∀ i, i < nc →
            ¬(fkb.getD i 0 = sk.getD (lcpOf (cur ++ pfx) sk) 0 ∧
              children.getD i GN.nilp ≠ GN.nilp)) →
          getChild (GN.lin pfx nc fkb children) cur sk = .ok .nilp) ∧
        (∀ i, i < nc →
          fkb.getD i 0 = sk.getD (lcpOf (cur ++ pfx) sk) 0 →
          children.getD i GN.nilp ≠ GN.nilp →
          (∀ j, j < i →
            ¬(fkb.getD j 0 = sk.getD (lcpOf (cur ++ pfx) sk) 0 ∧
              children.getD j GN.nilp ≠ GN.nilp)) →
          getChild (GN.lin pfx nc fkb children) cur sk
            = getChild (children.getD i GN.nilp) (cur ++ pfx) sk))) := by
  constructor
  · intro pfx child cur sk
    refine ⟨?_, ?_, ?_⟩
    · intro h
      simp only [getChild]
      rw [if_pos h]
    · intro h1 h2
      simp only [getChild]
      rw [if_neg (by omega), if_pos h2]
    · intro h1 h2
      constructor
      · intro hc
        subst hc
        simp only [getChild]
        rw [if_neg (by omega), if_neg (by omega)]
        simp [isNil]
      · intro hc
        simp only [getChild]
        rw [if_neg (by omega), if_neg (by omega), if_neg]
        intro hn
        exact hc ((isNil_true_iff child).mp hn)
  · intro pfx nc fkb children cur sk
    refine ⟨?_, ?_, ?_⟩
    · intro h
      simp only [getChild]
      rw [if_pos h]
    · intro h1 h2
      simp only [getChild]
      rw [if_neg (by omega), if_pos h2]
    · intro h1 h2 hl1 hl2
      constructor
      · intro hnone
        simp only [getChild]
        rw [if_neg (by omega), if_neg (by omega)]
        exact scanChildren_no_match fkb children nc _ _ _ hnone
      · intro i hinc hkb hchild hleast
        simp only [getChild]
        rw [if_neg (by omega), if_neg (by omega)]
        exact scanChildren_first_match fkb children nc _ _ _ i hinc hl1 hl2
          hkb hchild hleast

/-- Witness for C6: the leaf miss case at a concrete node (inline prefix
`[1]`, search key `[2]`, empty accumulated path). -/
theorem getChild_case_analysis_witness :
    lcpOf ([] ++ [1]) [2] < (([] : List Nat) ++ [1]).length ∧
    getChild (GN.leaf [1] (GN.nilp : GN Nat)) [] [2] = .ok .nilp :=
  ⟨by decide,
    (getChild_case_analysis.1 [1] GN.nilp [] [2]).1 (by decide)⟩

/-- C7: in `getChild` of the bitmap/binary-search variants (Node512 and
Node1024 share the body), when the presence bitmap reports a child for the
next search-key byte but the binary search returns -1, the operation takes
the structural-problem branch (a Go panic, `.error ()`); and under the
invariant that every set bitmap bit has a matching entry among the sorted
live `firstKeyByte` entries, the binary search returns a nonnegative
position and the descent branch is taken instead, so the panic branch is
unreachable. -/
theorem binGetChild_panic_unreachable {T : Type} :
    (∀ (pfx bm : List Nat) (nc : Nat) (fkb : List Nat)
        (children : List (GN T)) (cur sk : List Nat),
      lcpOf (cur ++ pfx) sk = (cur ++ pfx).length →
      lcpOf (cur ++ pfx) sk < sk.length →
      bmGet bm (sk.getD (lcpOf (cur ++ pfx) sk) 0) = true →
      binarySearchKeyByte fkb nc (sk.getD (lcpOf (cur ++ pfx) sk) 0) = -1 →
      getChild (GN.bin pfx bm nc fkb children) cur sk = .error ()) ∧
    (∀ (pfx bm : List Nat) (nc : Nat) (fkb : List Nat)
        (children : List (GN T)) (cur sk : List Nat),
      (∀ j, j < nc → ∀ i, i < j → fkb.getD i 0 < fkb.getD j 0) →
      nc ≤ fkb.length →
      (∀ b, bmGet bm b = true → ∃ i, i < nc ∧ fkb.getD i 0 = b) →
      lcpOf (cur ++ pfx) sk = (cur ++ pfx).length →
      lcpOf (cur ++ pfx) sk < sk.length →
      bmGet bm (sk.getD (lcpOf (cur ++ pfx) sk) 0) = true →
      ∃ p : Nat,
        binarySearchKeyByte fkb nc (sk.getD (lcpOf (cur ++ pfx) sk) 0)
          = (p : Int) ∧
        getChild (GN.bin pfx bm nc fkb children) cur sk
          = descendAt children p (cur ++ pfx) sk) := by
  constructor
  · intro pfx bm nc fkb children cur sk h1 h2 hbm hneg
    simp only [getChild]
    rw [if_neg (by omega), if_neg (by omega), hbm, hneg]
    norm_num
  · intro pfx bm nc fkb children cur sk hsort hnc hinv h1 h2 hbm
    obtain ⟨p, hp, hpnc, hpb⟩ :=
      binarySearch_found fkb nc (sk.getD (lcpOf (cur ++ pfx) sk) 0) hsort hnc
        (hinv _ hbm)
    refine ⟨p, hp, ?_⟩
    simp only [getChild]
    rw [if_neg (by omega), if_neg (by omega), hbm, hp]
    norm_num

/-- Witness for C7: the panic branch at a concrete inconsistent Node512
state (bitmap bit 6 set, no live entries at all). -/
theorem binGetChild_panic_unreachable_witness :
    getChild
        (GN.bin ([] : List Nat) [64, 0, 0, 0] 0 (List.replicate 50 0)
          (List.replicate 50 (GN.nilp : GN Nat))) [] [6]
      = .error () := by
  have hneg : binarySearchKeyByte (List.replicate 50 0) 0 6 = -1 := by
    have hloop : bsLoop (List.replicate 50 0) 6 0 0 = 0 := by
      rw [bsLoop, dif_neg (by omega)]
    show (if bsLoop (List.replicate 50 0) 6 0 0
            < (List.replicate 50 0).length ∧
          (List.replicate 50 0).getD (bsLoop (List.replicate 50 0) 6 0 0) 0 = 6
        then ((bsLoop (List.replicate 50 0) 6 0 0 : Nat) : Int) else -1) = -1
    rw [hloop]
    decide
  exact binGetChild_panic_unreachable.1 [] [64, 0, 0, 0] 0
    (List.replicate 50 0) (List.replicate 50 GN.nilp) [] [6]
    (by decide) (by decide) (by decide) hneg
